import Mathlib

/-!
Verification development for the vitest-evals matching/scoring engine.

The comparison functions (`strictEquals`, `fuzzyMatch` and its helpers,
`createMatcher`) are translated from `src/scorers/utils.ts`; the tool-call
evaluators from `src/scorers/toolCallScorer.ts`; the structured-output scorer
from `src/scorers/structuredOutputScorer.ts`; the aggregation formulas from
`src/index.ts`.

Modelling conventions:
* JavaScript runtime values are modelled by the inductive type `Value`:
  `undefined`, `null`, booleans, numbers (as rationals, so NaN/Infinity and
  float rounding are outside the model), strings, arrays, plain objects
  (association lists of fields; real JS objects have distinct keys, which
  theorems assume via `wfValue` where it matters), and regular expressions
  (a source text plus an abstract test predicate).  Function-typed values are
  not modelled; caller-supplied comparator functions are modelled at the
  strategy level instead.
* `===` on two composite (array/object/regex) values is reference equality in
  JS; the expected and actual values reaching the comparators come from
  different places, so the model takes it to be `false` on composites.
* A JS function call can throw; comparator calls are therefore modelled in
  the `Except String` monad.  The built-in strategies never throw.  The only
  `try`/`catch` in the scorers wraps `JSON.parse`, which is modelled as an
  explicit `String → Except String Value` parameter.
* Property access `parsed[k]` yields `undefined` for a missing key; on arrays
  only the canonical index keys are modelled (prototype-chain properties such
  as `length` are outside the model and unused by every claim).
-/

inductive Value where
  | undefV : Value
  | vnull : Value
  | bool (b : Bool) : Value
  | num (q : ℚ) : Value
  | str (s : String) : Value
  | arr (xs : List Value) : Value
  | obj (fields : List (String × Value)) : Value
  | regex (src : String) (test : String → Bool) : Value

/-- `typeof` of a modelled value (`typeof null` is `"object"` in JS, as is
`typeof` of arrays and regular expressions). -/
def typeofV : Value → String
  | .undefV => "undefined"
  | .vnull => "object"
  | .bool _ => "boolean"
  | .num _ => "number"
  | .str _ => "string"
  | .arr _ => "object"
  | .obj _ => "object"
  | .regex _ _ => "object"

/-- JS `===`: value equality on primitives, reference equality on composites
(taken to be `false`, see the module comment). -/
def jsStrictEq : Value → Value → Bool
  | .undefV, .undefV => true
  | .vnull, .vnull => true
  | .bool a, .bool b => a == b
  | .num a, .num b => decide (a = b)
  | .str a, .str b => a == b
  | _, _ => false

/-- `v === null || v === undefined`. -/
def isNullish : Value → Bool
  | .undefV => true
  | .vnull => true
  | _ => false

/-- JS truthiness of a value (`NaN` is outside the rational model). -/
def truthy : Value → Bool
  | .undefV => false
  | .vnull => false
  | .bool b => b
  | .num q => decide (q ≠ 0)
  | .str s => s ≠ ""
  | .arr _ => true
  | .obj _ => true
  | .regex _ _ => true

/-- First binding of key `k` in an association list of object fields. -/
def lookupF (k : String) : List (String × Value) → Option Value
  | [] => none
  | (k', v) :: rest => if k' = k then some v else lookupF k rest

/-- Element of an array addressed by a canonical index key (`"0"`, `"1"`, …);
`i` is the index of the list head. -/
def arrFind : List Value → Nat → String → Option Value
  | [], _, _ => none
  | x :: rest, i, k => if toString i == k then some x else arrFind rest (i + 1) k

/-- JS property read `v[k]`, `undefined` when absent (or when `v` is not an
object/array). -/
def getProp : Value → String → Value
  | .obj fs, k => (lookupF k fs).getD .undefV
  | .arr xs, k => (arrFind xs 0 k).getD .undefV
  | _, _ => .undefV

/-- JS `k in v` restricted to own enumerable/index properties. -/
def hasProp : Value → String → Bool
  | .obj fs, k => (lookupF k fs).isSome
  | .arr xs, k => (arrFind xs 0 k).isSome
  | _, _ => false

/-- `Object.keys`: field names of an object, index strings of an array,
`[]` otherwise. -/
def keysOf : Value → List String
  | .obj fs => fs.map Prod.fst
  | .arr xs => (List.range xs.length).map toString
  | _ => []

/-- Character-list version of `startsWith`. -/
def startsWithCh : List Char → List Char → Bool
  | [], _ => true
  | _ :: _, [] => false
  | a :: as, b :: bs => a == b && startsWithCh as bs

/-- Character-list substring containment. -/
def hasSubCh (needle : List Char) : List Char → Bool
  | [] => startsWithCh needle []
  | h :: t => startsWithCh needle (h :: t) || hasSubCh needle t

/-- JS `hay.includes(needle)`. -/
def strIncludes (hay needle : String) : Bool :=
  hasSubCh needle.data hay.data

/-- A single-quote character, used in rationale strings. -/
def sQuote : String := String.singleton (Char.ofNat 39)

/-- `list.join(sep)`. -/
def joinSep (sep : String) : List String → String
  | [] => ""
  | [x] => x
  | x :: y :: rest => x ++ sep ++ joinSep sep (y :: rest)

/-- Fuzzy matching options (`FuzzyMatchOptions`); `none` fields mean the
option was not supplied, and the per-function destructuring defaults apply. -/
structure FuzzyOpts where
  caseInsensitive : Option Bool
  substring : Option Bool
  numericTolerance : Option ℚ
  ignoreArrayOrder : Option Bool
  coerceTypes : Option Bool

/-- The empty options object `{}`. -/
def FuzzyOpts.empty : FuzzyOpts := ⟨none, none, none, none, none⟩

/-- `fuzzyMatchString` from utils: case folding (default on) and optional
two-directional substring containment (default off). -/
def fuzzyMatchString (expected actual : String) (options : FuzzyOpts) : Bool :=
  let caseInsensitive := options.caseInsensitive.getD true
  let substring := options.substring.getD false
  let expectedStr := if caseInsensitive then expected.toLower else expected
  let actualStr := if caseInsensitive then actual.toLower else actual
  if substring then
    strIncludes actualStr expectedStr || strIncludes expectedStr actualStr
  else expectedStr == actualStr

/-- `fuzzyMatchNumber` from utils: relative-or-absolute hybrid tolerance. -/
def fuzzyMatchNumber (expected actual : ℚ) (options : FuzzyOpts) : Bool :=
  let numericTolerance := options.numericTolerance.getD (1 / 1000)
  let tolerance := max (|expected| * numericTolerance) numericTolerance
  decide (|expected - actual| ≤ tolerance)

/-- `Number.parseFloat` restricted to plain decimal literals; anything else
is NaN, modelled as `none` (NaN makes every `===` comparison false). -/
def jsParseFloat (s : String) : Option ℚ :=
  let core (t : String) : Option ℚ :=
    match t.split (· = '.') with
    | [intPart] => (intPart.toNat?.map (fun n => (n : ℚ)))
    | [intPart, fracPart] =>
        match intPart.toNat?, fracPart.toNat? with
        | some n, some f => some ((n : ℚ) + (f : ℚ) / (10 : ℚ) ^ fracPart.length)
        | _, _ => none
    | _ => none
  if s.startsWith "-" then (core (s.drop 1)).map Neg.neg else core s

/-- `fuzzyMatchWithCoercion` from utils. -/
def fuzzyMatchWithCoercion (expected actual : Value) (_options : FuzzyOpts) : Bool :=
  match expected, actual with
  | .bool b, .str s => b == (s.toLower == "true" || s == "1")
  | .str s, .num n =>
      match jsParseFloat s with
      | some q => decide (q = n)
      | none => false
  | .num n, .str s =>
      match jsParseFloat s with
      | some q => decide (n = q)
      | none => false
  | _, _ => false

mutual

/-- `strictEquals` from utils (deep equality with `===` leaves; objects must
have the same number of keys and matching values at the expected keys). -/
def strictEquals (expected actual : Value) : Bool :=
  if jsStrictEq expected actual then true
  else if isNullish expected || isNullish actual then false
  else if typeofV expected ≠ typeofV actual then false
  else
    match expected with
    | .arr xs =>
        match actual with
        | .arr ys => xs.length == ys.length && strictList xs ys
        | _ => false
    | .obj fs =>
        fs.length == (keysOf actual).length && strictFields fs actual
    | .regex _ _ => (keysOf actual).length == 0
    | _ => false
termination_by sizeOf expected
decreasing_by all_goals simp_wf <;> omega

/-- Element-wise strict comparison of two arrays of equal length. -/
def strictList : List Value → List Value → Bool
  | [], _ => true
  | _ :: _, [] => true
  | x :: xs, y :: ys => strictEquals x y && strictList xs ys
termination_by xs _ => sizeOf xs
decreasing_by all_goals simp_wf <;> omega

/-- `expectedKeys.every((key) => key in actual && strictEquals(...))`,
iterated over the expected object entries. -/
def strictFields : List (String × Value) → Value → Bool
  | [], _ => true
  | (k, v) :: rest, actual =>
      hasProp actual k && strictEquals v (getProp actual k) && strictFields rest actual
termination_by fs _ => sizeOf fs
decreasing_by all_goals simp_wf <;> omega

end

/-- `Array.isArray`. -/
def Value.isArr : Value → Bool
  | .arr _ => true
  | _ => false

/-- Coercion-then-`===` tail of `fuzzyMatch`. -/
def coerceOrStrict (e a : Value) (options : FuzzyOpts) : Bool :=
  (options.coerceTypes.getD false && fuzzyMatchWithCoercion e a options) || jsStrictEq e a

mutual

/-- `fuzzyMatch` from utils: regex test, nullish short-circuit, per-type
relaxed comparison, optional coercion, `===` fallback.  (Function-typed
expected values are outside the value model; see the module comment.) -/
def fuzzyMatch (expected actual : Value) (options : FuzzyOpts) : Bool :=
  match expected, actual with
  | .regex _ test, .str s => test s
  | .regex _ _, _ => false
  | .undefV, a => jsStrictEq .undefV a
  | .vnull, a => jsStrictEq .vnull a
  | e, .undefV => jsStrictEq e .undefV
  | e, .vnull => jsStrictEq e .vnull
  | .str a, .str b => fuzzyMatchString a b options
  | .num a, .num b => fuzzyMatchNumber a b options
  | .arr xs, .arr ys => fuzzyMatchArray xs ys options
  | .obj fs, a =>
      if typeofV a == "object" && !a.isArr then fuzzyMatchObject fs a options
      else coerceOrStrict (.obj fs) a options
  | e, a => coerceOrStrict e a options
termination_by (sizeOf expected, 0)

/-- `fuzzyMatchArray` from utils: greedy first-fit consumption when
`ignoreArrayOrder` (default), element-wise otherwise. -/
def fuzzyMatchArray (expected actual : List Value) (options : FuzzyOpts) : Bool :=
  if options.ignoreArrayOrder.getD true then fuzzyArrGreedy expected actual options
  else expected.length == actual.length && fuzzyArrOrdered expected actual options
termination_by (sizeOf expected, sizeOf actual + 1)

/-- Element-wise fuzzy comparison (`ignoreArrayOrder: false`). -/
def fuzzyArrOrdered : List Value → List Value → FuzzyOpts → Bool
  | [], _, _ => true
  | _ :: _, [], _ => true
  | x :: xs, y :: ys, options =>
      fuzzyMatch x y options && fuzzyArrOrdered xs ys options
termination_by xs _ _ => (sizeOf xs, 0)

/-- Each expected element consumes the first not-yet-consumed matching
actual element. -/
def fuzzyArrGreedy : List Value → List Value → FuzzyOpts → Bool
  | [], _, _ => true
  | e :: es, acts, options =>
      match removeFirstMatch e acts options with
      | some acts' => fuzzyArrGreedy es acts' options
      | none => false
termination_by es _ _ => (sizeOf es, 0)

/-- Remove the first element of the list fuzzy-matching `e`; `none` when no
element matches. -/
def removeFirstMatch (e : Value) : List Value → FuzzyOpts → Option (List Value)
  | [], _ => none
  | a :: as, options =>
      if fuzzyMatch e a options then some as
      else (removeFirstMatch e as options).map (a :: ·)
termination_by acts _ => (sizeOf e, sizeOf acts)

/-- `fuzzyMatchObject` from utils: subset semantics over the expected
entries. -/
def fuzzyMatchObject : List (String × Value) → Value → FuzzyOpts → Bool
  | [], _, _ => true
  | (k, v) :: rest, actual, options =>
      hasProp actual k && fuzzyMatch v (getProp actual k) options
        && fuzzyMatchObject rest actual options
termination_by fs _ _ => (sizeOf fs, 0)

end

mutual

/-- JS `String(v)` as used by template literals. -/
def jsString : Value → String
  | .undefV => "undefined"
  | .vnull => "null"
  | .bool b => cond b "true" "false"
  | .num q => toString q
  | .str s => s
  | .arr xs => jsArrJoin xs
  | .obj _ => "[object Object]"
  | .regex src _ => src

/-- `Array.prototype.toString`: elements joined by commas, nullish as empty. -/
def jsArrJoin : List Value → String
  | [] => ""
  | [x] => if isNullish x then "" else jsString x
  | x :: y :: rest =>
      (if isNullish x then "" else jsString x) ++ "," ++ jsArrJoin (y :: rest)

end

mutual

/-- `JSON.stringify` on data values (regex values serialize as `\x7b\x7d`). -/
def jsonStr : Value → String
  | .undefV => "null"
  | .vnull => "null"
  | .bool b => cond b "true" "false"
  | .num q => toString q
  | .str s => "\"" ++ s ++ "\""
  | .arr xs => "[" ++ jsonStrList xs ++ "]"
  | .obj fs => "\x7b" ++ jsonStrFields fs ++ "\x7d"
  | .regex _ _ => "\x7b\x7d"

/-- Comma-joined serializations of array elements. -/
def jsonStrList : List Value → String
  | [] => ""
  | [x] => jsonStr x
  | x :: y :: rest => jsonStr x ++ "," ++ jsonStrList (y :: rest)

/-- Comma-joined serializations of object fields. -/
def jsonStrFields : List (String × Value) → String
  | [] => ""
  | [(k, v)] => "\"" ++ k ++ "\":" ++ jsonStr v
  | (k, v) :: f :: rest => "\"" ++ k ++ "\":" ++ jsonStr v ++ "," ++ jsonStrFields (f :: rest)

end

/-- `formatValue` from utils, used in mismatch rationales. -/
def formatValue : Value → String
  | .undefV => "undefined"
  | .vnull => "null"
  | .regex src _ => src
  | .str s => "\"" ++ s ++ "\""
  | .arr xs => jsonStr (.arr xs)
  | .obj fs => jsonStr (.obj fs)
  | v => jsString v

mutual

/-- Well-formed data value: no regular expressions, and every object has
distinct keys (every value a real JS program obtains from JSON data is of
this shape). -/
def wfValue : Value → Bool
  | .arr xs => wfList xs
  | .obj fs => decide ((fs.map Prod.fst).Nodup) && wfFields fs
  | .regex _ _ => false
  | _ => true

/-- All elements well-formed. -/
def wfList : List Value → Bool
  | [] => true
  | x :: xs => wfValue x && wfList xs

/-- All field values well-formed. -/
def wfFields : List (String × Value) → Bool
  | [] => true
  | (_, v) :: rest => wfValue v && wfFields rest

end

/-- An expected tool call from the test data: a name plus optional argument
pattern (`none` = arguments not checked). -/
structure ExpectedTool where
  name : String
  arguments : Option Value

/-- An actual tool call as seen by the matcher (provider-specific extra
fields are opaque to it and omitted). -/
structure ToolCall where
  name : String
  arguments : Option Value

/-- `act.arguments || \x7b\x7d`. -/
def argsOrEmpty : Option Value → Value
  | some v => if truthy v then v else .obj []
  | none => .obj []

/-- A comparator call; JS functions can throw, modelled by `Except`. -/
abbrev Matcher := Value → Value → Except String Bool

/-- `MatchStrategy`: `"strict"`, `"fuzzy"`, or a caller-supplied function. -/
inductive Strategy where
  | strict : Strategy
  | fuzzy : Strategy
  | custom (f : Value → Value → Except String Bool) : Strategy

/-- `createMatcher` from utils (the tool scorers always invoke the result
with two arguments, so the unused `context` parameter is dropped). -/
def createMatcher (strategy : Strategy) (options : FuzzyOpts) : Matcher :=
  match strategy with
  | .custom f => f
  | .strict => fun e a => .ok (strictEquals e a)
  | .fuzzy => fun e a => .ok (fuzzyMatch e a options)

/-- A returned `Score`: the numeric value plus the metadata fields the
scorers produce (absent fields are `none`). -/
structure ScoreResult where
  score : ℚ
  rationale : String
  matched : Option Nat
  total : Option Nat
  expectedMeta : Option Value
  actualMeta : Option Value
  outputRaw : Option String

/-- A score with a rationale and no further metadata. -/
def mkScore (q : ℚ) (r : String) : ScoreResult :=
  ⟨q, r, none, none, none, none, none⟩

/-- The cursor loop of `evaluateOrderedTools`; `k` is `expectedIndex`
(number of expected entries fully matched so far), `total` the length of the
full expected list. -/
def evalOrderedAux (m : Matcher) (allowExtras requireAllTools : Bool) (total : Nat) :
    List ExpectedTool → List ToolCall → Nat → Except String ScoreResult
  | [], acts, _ =>
      if !allowExtras && !acts.isEmpty then
        .ok (mkScore 0 ("Unexpected extra tools: " ++ joinSep ", " (acts.map ToolCall.name)))
      else .ok (mkScore 1 "All tools called in expected order with correct arguments")
  | e :: es, [], k =>
      let missing := (e :: es).map ExpectedTool.name
      if requireAllTools then
        .ok (mkScore 0 ("Missing required tools in sequence: " ++ joinSep ", " missing))
      else
        let score : ℚ := if total > 0 then (k : ℚ) / (total : ℚ) else 1
        .ok ⟨score,
          "Partial match: " ++ toString k ++ "/" ++ toString total
            ++ " tools called in order (missing: " ++ joinSep ", " missing ++ ")",
          some k, some total, none, none, none⟩
  | e :: es, a :: as, k =>
      if e.name == a.name then
        match e.arguments with
        | some v => do
            let argsMatch ← m v (argsOrEmpty a.arguments)
            if argsMatch then evalOrderedAux m allowExtras requireAllTools total es as (k + 1)
            else
              .ok ⟨(k : ℚ) / (total : ℚ),
                "Tool " ++ sQuote ++ e.name ++ sQuote
                  ++ " called with incorrect arguments at position " ++ toString (k + 1)
                  ++ " (" ++ toString k ++ "/" ++ toString total ++ " tools matched correctly)",
                some k, some total, some v, a.arguments, none⟩
        | none => evalOrderedAux m allowExtras requireAllTools total es as (k + 1)
      else if allowExtras then evalOrderedAux m allowExtras requireAllTools total (e :: es) as k
      else
        .ok (mkScore 0 ("Expected " ++ sQuote ++ e.name ++ sQuote ++ " at position "
          ++ toString (k + 1) ++ " but found " ++ sQuote ++ a.name ++ sQuote))
termination_by exps acts _ => (acts.length, exps.length)

/-- `evaluateOrderedTools` from the tool-call scorer. -/
def evaluateOrderedTools (m : Matcher) (allowExtras requireAllTools : Bool)
    (expected : List ExpectedTool) (actual : List ToolCall) : Except String ScoreResult :=
  evalOrderedAux m allowExtras requireAllTools expected.length expected actual 0

/-- The `findIndex` step of the unordered matcher: remove the first actual
call matching the expected tool (name first, then arguments if specified). -/
def findRemoveTool (m : Matcher) (e : ExpectedTool) : List ToolCall → Except String (Option (List ToolCall))
  | [] => .ok none
  | a :: as => do
      let b ←
        (if e.name == a.name then
          match e.arguments with
          | some v => m v (argsOrEmpty a.arguments)
          | none => .ok true
        else .ok false)
      if b then .ok (some as)
      else do
        let r ← findRemoveTool m e as
        .ok (r.map (a :: ·))

/-- The consumption loop of `evaluateUnorderedTools`, which walks the
expected list from its last element to its first; the input here is the
reversed expected list, and unmatched items are collected in processing
order. -/
def consumeRev (m : Matcher) : List ExpectedTool → List ToolCall → Except String (List ExpectedTool × List ToolCall)
  | [], acts => .ok ([], acts)
  | e :: es, acts => do
      let r ← findRemoveTool m e acts
      match r with
      | some acts' => consumeRev m es acts'
      | none => do
          let (u, rem) ← consumeRev m es acts
          .ok (e :: u, rem)

/-- Remaining (unmatched) expected tools, in original order, and remaining
(extra) actual calls after the greedy unordered consumption. -/
def consumeTools (m : Matcher) (exps : List ExpectedTool) (acts : List ToolCall) :
    Except String (List ExpectedTool × List ToolCall) := do
  let (u, rem) ← consumeRev m exps.reverse acts
  .ok (u.reverse, rem)

/-- Issue text for an unmatched expected tool (distinguishes wrong-arguments
from not-called-at-all against the full original actual list). -/
def missingIssue (e : ExpectedTool) (actual : List ToolCall) : String :=
  match e.arguments with
  | some _ =>
      if (actual.filter (fun a => a.name == e.name)).length > 0 then
        "Tool " ++ sQuote ++ e.name ++ sQuote ++ " called but with incorrect arguments"
      else "Missing required tool: " ++ e.name
  | none => "Missing required tool: " ++ e.name

/-- `evaluateUnorderedTools` from the tool-call scorer. -/
def evaluateUnorderedTools (m : Matcher) (requireAllTools allowExtras : Bool)
    (expected : List ExpectedTool) (actual : List ToolCall) : Except String ScoreResult := do
  let (remExp, remAct) ← consumeTools m expected actual
  let issues₁ := remExp.map (fun e => missingIssue e actual)
  let extraTools := remAct.map ToolCall.name
  let issues := issues₁ ++
    (if !allowExtras && !extraTools.isEmpty then
      ["Unexpected extra tools: " ++ joinSep ", " extraTools]
    else [])
  let expectedMatched := expected.length - remExp.length
  let score : ℚ := if expected.length > 0 then (expectedMatched : ℚ) / (expected.length : ℚ) else 1
  if !issues.isEmpty && (requireAllTools || !allowExtras) then
    .ok (mkScore 0 (joinSep "; " issues))
  else if score == 1 then
    let extraInfo :=
      if !extraTools.isEmpty then " (plus extra: " ++ joinSep ", " extraTools ++ ")" else ""
    .ok (mkScore 1 ("All expected tools were called" ++ extraInfo))
  else
    .ok ⟨score, joinSep "; " issues, some expectedMatched, some expected.length, none, none, none⟩

/-- `ToolCallScorer` configuration (source defaults: `ordered = false`,
`requireAll = true`, `allowExtras = true`). -/
structure ToolCallConfig where
  ordered : Bool
  requireAll : Bool
  allowExtras : Bool

/-- The body of the scorer returned by `ToolCallScorer`, applied to the
expected tools and actual calls of one evaluation (`m` is the matcher built
by `createMatcher` from the configured strategy). -/
def toolCallScore (cfg : ToolCallConfig) (m : Matcher)
    (expectedTools : List ExpectedTool) (actualCalls : List ToolCall) : Except String ScoreResult :=
  if expectedTools.length == 0 then .ok (mkScore 1 "No tool calls expected")
  else if actualCalls.length == 0 then
    .ok (mkScore 0 ("Expected " ++ toString expectedTools.length ++ " tool(s) but none were called"))
  else if cfg.ordered then evaluateOrderedTools m cfg.allowExtras cfg.requireAll expectedTools actualCalls
  else evaluateUnorderedTools m cfg.requireAll cfg.allowExtras expectedTools actualCalls

/-- The tool scorer merges the user fuzzy options over its own defaults. -/
def toolCallFuzzyDefaults (user : FuzzyOpts) : FuzzyOpts :=
  ⟨some (user.caseInsensitive.getD true),
   some (user.substring.getD true),
   some (user.numericTolerance.getD (1 / 1000)),
   some (user.ignoreArrayOrder.getD true),
   some (user.coerceTypes.getD false)⟩

/-- Field matching strategy of the structured-output scorer (`"strict"`,
`"fuzzy"`, or a caller-supplied 3-argument function receiving the key). -/
inductive SMatch where
  | strict : SMatch
  | fuzzy : SMatch
  | custom (f : Value → Value → String → Except String Bool) : SMatch

/-- Dispatch of `fieldMatcher` in `StructuredOutputScorer` (built-in
strategies ignore the key). -/
def sFieldMatcher (ms : SMatch) (options : FuzzyOpts) (ev av : Value) (key : String) :
    Except String Bool :=
  match ms with
  | .custom f => f ev av key
  | .strict => .ok (strictEquals ev av)
  | .fuzzy => .ok (fuzzyMatch ev av options)

/-- `StructuredOutputScorer` configuration (source defaults:
`requireAll = true`, `allowExtras = true`, `errorField = "error"`;
`errorField = none` models the `null` opt-out). -/
structure SConfig where
  requireAll : Bool
  allowExtras : Bool
  errorField : Option String

/-- The expected-field loop: returns matched keys and mismatches, in
iteration order; a comparator throw aborts the loop. -/
def checkFields (fm : Value → Value → String → Except String Bool) (parsed : Value) :
    List (String × Value) → Except String (List String × List (String × Value × Value))
  | [] => .ok ([], [])
  | (key, ev) :: rest => do
      let av := getProp parsed key
      let isMatch ← fm ev av key
      let (ms, mms) ← checkFields fm parsed rest
      if isMatch then .ok (key :: ms, mms) else .ok (ms, (key, ev, av) :: mms)

/-- The error-field convention: the triggering value of
`parsed[errorField] && parsed[errorField] !== "" && parsed[errorField] !== null`,
when the check fires. -/
def errorValue (errorField : Option String) (parsed : Value) : Option Value :=
  match errorField with
  | none => none
  | some ef =>
      let v := getProp parsed ef
      if truthy v && !jsStrictEq v (.str "") && !jsStrictEq v .vnull then some v else none

/-- `field: expected X, got Y` details, semicolon-joined. -/
def mismatchDetails (mms : List (String × Value × Value)) : String :=
  joinSep "; " (mms.map (fun m => m.1 ++ ": expected " ++ formatValue m.2.1 ++ ", got " ++ formatValue m.2.2))

/-- The body of the scorer returned by `StructuredOutputScorer`, applied to
one evaluation: `jparse` models `JSON.parse` (its `catch` is the only one in
the scorer), `expected` the expected field set, `output` the raw output. -/
def structuredOutputScore (jparse : String → Except String Value)
    (ms : SMatch) (options : FuzzyOpts) (cfg : SConfig)
    (expected : List (String × Value)) (output : String) : Except String ScoreResult :=
  match jparse output with
  | .error err =>
      .ok ⟨0, "Failed to parse output as JSON: " ++ err, none, none, none, none, some output⟩
  | .ok parsed =>
    if expected.length == 0 then
      .ok (mkScore 1 "Valid JSON output (no expected fields specified)")
    else
      match errorValue cfg.errorField parsed with
      | some v =>
          .ok ⟨0, "Output contains error: " ++ jsString v, none, none, none, none, some output⟩
      | none => do
          let (matchedKeys, mismatches) ← checkFields (sFieldMatcher ms options) parsed expected
          let extras := (keysOf parsed).filter (fun k => !(expected.map Prod.fst).contains k)
          let totalExpected := expected.length
          let totalMatched := matchedKeys.length
          if cfg.requireAll && !mismatches.isEmpty then
            .ok (mkScore 0 ("Missing required fields: " ++ joinSep ", " (mismatches.map (·.1))
              ++ " - " ++ mismatchDetails mismatches))
          else if !cfg.allowExtras && !extras.isEmpty then
            .ok (mkScore 0 ("Unexpected extra fields: " ++ joinSep ", " extras))
          else
            let score : ℚ := if totalExpected > 0 then (totalMatched : ℚ) / (totalExpected : ℚ) else 1
            if score == 1 then
              let extraInfo :=
                if !extras.isEmpty then " (plus extra fields: " ++ joinSep ", " extras ++ ")" else ""
              .ok (mkScore 1 ("All expected fields match" ++ extraInfo))
            else
              .ok ⟨score,
                "Matched " ++ toString totalMatched ++ "/" ++ toString totalExpected
                  ++ " fields - " ++ mismatchDetails mismatches,
                some totalMatched, some totalExpected, none, none, none⟩

/-- `describeEval` aggregation: the average over the scorer results of
`score ?? 0`. -/
def avgScore (scores : List (Option ℚ)) : ℚ :=
  (scores.foldl (fun acc s => acc + s.getD 0) 0) / (scores.length : ℚ)

/-- The `toEval` matcher pass decision: `(result.score ?? 0) >= threshold`. -/
def toEvalPass (score : Option ℚ) (threshold : ℚ) : Bool :=
  decide (score.getD 0 ≥ threshold)

/-- The numeric tolerance in effect for a given options record. -/
def tolOf (options : FuzzyOpts) : ℚ := options.numericTolerance.getD (1 / 1000)

/-- C10: in aggregation a `null` score is counted as `0`: `describeEval`
averages `score ?? 0` over the scorers, and the `toEval` pass decision uses
`(score ?? 0) >= threshold`, so a `null` result is numerically
indistinguishable from a `0.0` result in both. -/
theorem c10_null_score_aggregates_as_zero :
    ∀ (pre post : List (Option ℚ)) (t : ℚ),
      avgScore (pre ++ none :: post) = avgScore (pre ++ some 0 :: post) ∧
      toEvalPass none t = toEvalPass (some 0) t := by
  intro pre post t
  refine ⟨?_, rfl⟩
  unfold avgScore
  simp [List.foldl_append]

/-- C5: an output string that does not parse as JSON always yields a
returned (not thrown) score of `0.0` whose rationale is the fixed prefix
`Failed to parse output as JSON: ` followed by the parse error message, with
the raw output preserved in the metadata — for every configuration and
expected field set. -/
theorem c5_parse_failure_scores_zero (jparse : String → Except String Value)
    (ms : SMatch) (options : FuzzyOpts) (cfg : SConfig)
    (expected : List (String × Value)) (output err : String)
    (hp : jparse output = .error err) :
    structuredOutputScore jparse ms options cfg expected output =
      .ok ⟨0, "Failed to parse output as JSON: " ++ err, none, none, none, none, some output⟩ := by
  unfold structuredOutputScore
  rw [hp]

theorem c5_witness :
    structuredOutputScore (fun _ => .error "SyntaxError: Unexpected token")
      .strict FuzzyOpts.empty ⟨true, true, some "error"⟩ [("a", .num 1)] "not json" =
    .ok ⟨0, "Failed to parse output as JSON: SyntaxError: Unexpected token",
      none, none, none, none, some "not json"⟩ :=
  c5_parse_failure_scores_zero _ _ _ _ _ _ _ rfl

/-- C3 (amended): `fuzzyMatch` on two numbers accepts exactly when
`|e - a| <= max(|e| * t, t)`; hence `compareFuzzy(e, e + e*t)` is true for
every `e` whenever `t >= 0`, and `compareFuzzy(e, e + e*t*1.0001)` is false
whenever `t > 0` and `|e| >= 1` — but not for every `e`: for `|e|` small the
absolute arm of the tolerance accepts (see the counterexample at `e = 0`). -/
theorem c3_numeric_tolerance_boundary (options : FuzzyOpts) (e a : ℚ) :
    (fuzzyMatch (.num e) (.num a) options = true ↔
      |e - a| ≤ max (|e| * tolOf options) (tolOf options)) ∧
    (0 ≤ tolOf options → fuzzyMatch (.num e) (.num (e + e * tolOf options)) options = true) ∧
    (0 < tolOf options → 1 ≤ |e| →
      fuzzyMatch (.num e) (.num (e + e * tolOf options * (10001 / 10000))) options = false) := by
  have hfm : ∀ b : ℚ, fuzzyMatch (.num e) (.num b) options =
      decide (|e - b| ≤ max (|e| * tolOf options) (tolOf options)) := by
    intro b
    simp [fuzzyMatch, fuzzyMatchNumber, tolOf]
  refine ⟨by rw [hfm]; simp, ?_, ?_⟩
  · intro ht
    rw [hfm, decide_eq_true_eq]
    have h1 : e - (e + e * tolOf options) = -(e * tolOf options) := by ring
    rw [h1, abs_neg, abs_mul, abs_of_nonneg ht]
    exact le_max_left _ _
  · intro ht he
    rw [hfm, decide_eq_false_iff_not]
    intro habs
    have h1 : e - (e + e * tolOf options * (10001 / 10000)) =
        -(e * tolOf options * (10001 / 10000)) := by ring
    rw [h1, abs_neg, abs_mul, abs_mul, abs_of_nonneg ht.le] at habs
    have h2 : |(10001 : ℚ) / 10000| = 10001 / 10000 := by norm_num
    rw [h2] at habs
    have hm : max (|e| * tolOf options) (tolOf options) = |e| * tolOf options :=
      max_eq_left (by nlinarith)
    rw [hm] at habs
    nlinarith

theorem c3_counterexample :
    fuzzyMatch (.num 0) (.num (0 + 0 * tolOf FuzzyOpts.empty * (10001 / 10000)))
      FuzzyOpts.empty = true := by
  norm_num [fuzzyMatch, fuzzyMatchNumber, tolOf, FuzzyOpts.empty]

theorem c3_witness :
    fuzzyMatch (.num 2) (.num (2 + 2 * tolOf FuzzyOpts.empty)) FuzzyOpts.empty = true ∧
    fuzzyMatch (.num 2) (.num (2 + 2 * tolOf FuzzyOpts.empty * (10001 / 10000)))
      FuzzyOpts.empty = false :=
  ⟨(c3_numeric_tolerance_boundary FuzzyOpts.empty 2 2).2.1
      (by norm_num [tolOf, FuzzyOpts.empty]),
   (c3_numeric_tolerance_boundary FuzzyOpts.empty 2 2).2.2
      (by norm_num [tolOf, FuzzyOpts.empty]) (by norm_num)⟩

/-- The error-field check fires exactly on truthy values (`v !== ""` and
`v !== null` are subsumed by truthiness). -/
theorem errorValue_eq_truthy (ef : String) (parsed : Value) :
    errorValue (some ef) parsed =
      (if truthy (getProp parsed ef) then some (getProp parsed ef) else none) := by
  unfold errorValue
  cases h : getProp parsed ef <;> simp_all [truthy, jsStrictEq]

/-- C2: with a configured error field and a non-empty expected field set,
a truthy parsed value at that field (in particular any non-empty string)
forces score `0.0` regardless of the other fields; a falsy value there (the
field absent, `null`, the empty string — and also `0` or `false`, settling
the claim's open point) leaves the scorer behaving exactly as if the error
field convention were disabled. -/
theorem c2_error_field_convention (jparse : String → Except String Value) (ms : SMatch)
    (options : FuzzyOpts) (requireAll allowExtras : Bool) (ef : String)
    (expected : List (String × Value)) (output : String) (parsed : Value)
    (hp : jparse output = .ok parsed) :
    (truthy (getProp parsed ef) = true → expected ≠ [] →
      ∃ r, structuredOutputScore jparse ms options ⟨requireAll, allowExtras, some ef⟩ expected output = .ok r ∧
        r.score = 0 ∧
        r.rationale = "Output contains error: " ++ jsString (getProp parsed ef)) ∧
    (truthy (getProp parsed ef) = false →
      structuredOutputScore jparse ms options ⟨requireAll, allowExtras, some ef⟩ expected output =
        structuredOutputScore jparse ms options ⟨requireAll, allowExtras, none⟩ expected output) ∧
    (∀ s : String, s ≠ "" → truthy (.str s) = true) ∧
    truthy .undefV = false ∧ truthy .vnull = false ∧ truthy (.str "") = false ∧
    truthy (.num 0) = false ∧ truthy (.bool false) = false := by
  refine ⟨?_, ?_, by simp [truthy], rfl, rfl, by simp [truthy], by simp [truthy], rfl⟩
  · intro htr hne
    unfold structuredOutputScore
    rw [hp]
    have hlen : (expected.length == 0) = false := by
      cases expected with
      | nil => exact absurd rfl hne
      | cons x xs => rfl
    rw [hlen]
    simp only [Bool.false_eq_true, if_false]
    rw [errorValue_eq_truthy, htr]
    exact ⟨_, rfl, rfl, rfl⟩
  · intro hf
    unfold structuredOutputScore
    rw [hp]
    have hev : errorValue (some ef) parsed = errorValue none parsed := by
      rw [errorValue_eq_truthy, hf]
      rfl
    simp only [hev]

theorem c2_witness :
    (∃ r, structuredOutputScore
        (fun _ => .ok (.obj [("error", .str "boom"), ("a", .num 1)]))
        (.custom (fun _ _ _ => .ok true)) FuzzyOpts.empty
        ⟨true, true, some "error"⟩ [("a", .num 1)] "out" = .ok r ∧
      r.score = 0 ∧ r.rationale = "Output contains error: boom") ∧
    structuredOutputScore (fun _ => .ok (.obj [("a", .num 1)]))
        (.custom (fun _ _ _ => .ok true)) FuzzyOpts.empty
        ⟨true, true, some "error"⟩ [("a", .num 1)] "out" =
      structuredOutputScore (fun _ => .ok (.obj [("a", .num 1)]))
        (.custom (fun _ _ _ => .ok true)) FuzzyOpts.empty
        ⟨true, true, none⟩ [("a", .num 1)] "out" := by
  constructor
  · have h := (c2_error_field_convention
      (fun _ => .ok (.obj [("error", .str "boom"), ("a", .num 1)]))
      (.custom (fun _ _ _ => .ok true)) FuzzyOpts.empty true true "error"
      [("a", .num 1)] "out" (.obj [("error", .str "boom"), ("a", .num 1)]) rfl).1
      (by simp [getProp, lookupF, truthy]) (by simp)
    simpa [getProp, lookupF, jsString] using h
  · exact (c2_error_field_convention
      (fun _ => .ok (.obj [("a", .num 1)]))
      (.custom (fun _ _ _ => .ok true)) FuzzyOpts.empty true true "error"
      [("a", .num 1)] "out" (.obj [("a", .num 1)]) rfl).2.1
      (by simp [getProp, lookupF, truthy])

/-- Binding a thrown error propagates it (definitional for `Except`). -/
theorem errBind {α β : Type} (e : String) (f : α → Except String β) :
    (Except.error e >>= f) = Except.error e := rfl

/-- Binding a pure value applies the continuation (definitional). -/
theorem okBind {α β : Type} (x : α) (f : α → Except String β) :
    (Except.ok x >>= f) = f x := rfl

/-- C8: a throwing caller-supplied comparator propagates out of both
scorers as a thrown error (a rejected promise) and is never converted into a
`0.0`/`false` result: for the (default, unordered) tool-call matcher, an
expected tool with arguments whose first name-matching actual call makes the
custom function throw yields that very error; likewise for the
structured-output scorer when the custom field matcher throws on the first
expected field.  (The embedding threads `Except` through every comparator
call with no handler, mirroring the absence of any `try`/`catch` around
matcher invocations in the source.) -/
theorem c8_custom_matcher_error_propagates
    (f : Value → Value → Except String Bool)
    (g : Value → Value → String → Except String Bool)
    (err nm : String) (v : Value) (a : ToolCall) (rest : List ToolCall)
    (requireAll allowExtras : Bool)
    (jparse : String → Except String Value) (options : FuzzyOpts) (cfg : SConfig)
    (key : String) (ev : Value) (erest : List (String × Value))
    (output : String) (parsed : Value)
    (hname : a.name = nm) (hf : f v (argsOrEmpty a.arguments) = .error err)
    (hp : jparse output = .ok parsed) (hnoerr : errorValue cfg.errorField parsed = none)
    (hg : g ev (getProp parsed key) key = .error err) :
    toolCallScore ⟨false, requireAll, allowExtras⟩ f [⟨nm, some v⟩] (a :: rest) = .error err ∧
    structuredOutputScore jparse (.custom g) options cfg ((key, ev) :: erest) output =
      .error err := by
  constructor
  · have h1 : findRemoveTool f ⟨nm, some v⟩ (a :: rest) = .error err := by
      unfold findRemoveTool
      simp only [hname, beq_self_eq_true, if_true, hf]
      rfl
    have h2 : consumeRev f [⟨nm, some v⟩] (a :: rest) = .error err := by
      unfold consumeRev
      rw [h1]
      rfl
    unfold toolCallScore evaluateUnorderedTools consumeTools
    simp only [List.length_cons, List.reverse_singleton]
    rw [h2]
    rfl
  · unfold structuredOutputScore
    rw [hp]
    have h3 : checkFields (sFieldMatcher (.custom g) options) parsed ((key, ev) :: erest) =
        .error err := by
      unfold checkFields sFieldMatcher
      simp only []
      rw [hg]
      rfl
    simp only [List.length_cons, Nat.succ_ne_zero, beq_iff_eq, if_false]
    simp only [hnoerr]
    rw [h3]
    rfl

theorem c8_witness :
    toolCallScore ⟨false, true, true⟩ (fun _ _ => .error "matcher bug")
      [⟨"t", some (.num 1)⟩] [⟨"t", some (.num 2)⟩] = .error "matcher bug" ∧
    structuredOutputScore (fun _ => .ok (.obj [("a", .num 3)]))
      (.custom (fun _ _ _ => .error "matcher bug")) FuzzyOpts.empty
      ⟨true, true, some "error"⟩ [("a", .num 1)] "out" = .error "matcher bug" :=
  c8_custom_matcher_error_propagates
    (fun _ _ => .error "matcher bug") (fun _ _ _ => .error "matcher bug")
    "matcher bug" "t" (.num 1) ⟨"t", some (.num 2)⟩ [] true true
    (fun _ => .ok (.obj [("a", .num 3)])) FuzzyOpts.empty ⟨true, true, some "error"⟩
    "a" (.num 1) [] "out" (.obj [("a", .num 3)])
    rfl rfl rfl (by simp [errorValue, getProp, lookupF, truthy, jsStrictEq]) rfl

/-- Every successful result of the ordered cursor loop has its score in
`[0, 1]`, given the loop invariant `k + |exps| ≤ total`. -/
theorem evalOrderedAux_bounds (m : Matcher) (ax ra : Bool) (total : Nat) :
    ∀ (acts : List ToolCall) (exps : List ExpectedTool) (k : Nat),
      k + exps.length ≤ total →
      ∀ r, evalOrderedAux m ax ra total exps acts k = .ok r → 0 ≤ r.score ∧ r.score ≤ 1 := by
  have hdiv : ∀ (k total : Nat), k ≤ total →
      (0 : ℚ) ≤ (k : ℚ) / (total : ℚ) ∧ (k : ℚ) / (total : ℚ) ≤ 1 := by
    intro k total hk
    constructor
    · positivity
    · rcases Nat.eq_zero_or_pos total with h0 | hpos
      · simp [h0]
      · rw [div_le_one (by exact_mod_cast hpos)]
        exact_mod_cast hk
  intro acts
  induction acts with
  | nil =>
      intro exps k hk r hr
      cases exps with
      | nil =>
          unfold evalOrderedAux at hr
          split at hr <;> (cases hr; simp [mkScore])
      | cons e es =>
          unfold evalOrderedAux at hr
          split at hr
          · cases hr; simp [mkScore]
          · cases hr
            simp only []
            split
            · exact hdiv k total (by simp [List.length_cons] at hk; omega)
            · simp
  | cons a as ih =>
      intro exps k hk r hr
      cases exps with
      | nil =>
          unfold evalOrderedAux at hr
          split at hr <;> (cases hr; simp [mkScore])
      | cons e es =>
          unfold evalOrderedAux at hr
          split at hr
          · rcases harg : e.arguments with _ | v <;> rw [harg] at hr <;> simp only [] at hr
            · exact ih es (k + 1) (by simp [List.length_cons] at hk ⊢; omega) r hr
            · rcases hm : m v (argsOrEmpty a.arguments) with e' | b <;> rw [hm] at hr
              · rw [errBind] at hr
                exact absurd hr (by simp)
              · rw [okBind] at hr
                split at hr
                · exact ih es (k + 1) (by simp [List.length_cons] at hk ⊢; omega) r hr
                · cases hr
                  exact hdiv k total (by simp [List.length_cons] at hk; omega)
          · split at hr
            · exact ih (e :: es) k (by simp [List.length_cons] at hk ⊢; omega) r hr
            · cases hr; simp [mkScore]

/-- `0 ≤ k / n ≤ 1` for naturals with `k ≤ n` (division by zero yields 0). -/
theorem natDiv_unit (k n : Nat) (hk : k ≤ n) :
    (0 : ℚ) ≤ (k : ℚ) / (n : ℚ) ∧ (k : ℚ) / (n : ℚ) ≤ 1 := by
  constructor
  · positivity
  · rcases Nat.eq_zero_or_pos n with h0 | hpos
    · simp [h0]
    · rw [div_le_one (by exact_mod_cast hpos)]
      exact_mod_cast hk

/-- Every successful result of the unordered evaluator has its score in
`[0, 1]`. -/
theorem evaluateUnorderedTools_bounds (m : Matcher) (ra ax : Bool)
    (expected : List ExpectedTool) (actual : List ToolCall) (r : ScoreResult)
    (hr : evaluateUnorderedTools m ra ax expected actual = .ok r) :
    0 ≤ r.score ∧ r.score ≤ 1 := by
  unfold evaluateUnorderedTools at hr
  rcases hc : consumeTools m expected actual with e' | ⟨remExp, remAct⟩ <;> rw [hc] at hr
  · rw [errBind] at hr
    exact absurd hr (by simp)
  · rw [okBind] at hr
    simp only [] at hr
    repeat' split at hr
    all_goals cases hr
    all_goals first
      | (simp [mkScore]; done)
      | exact natDiv_unit _ _ (Nat.sub_le _ _)
      | (simp only []; exact natDiv_unit _ _ (Nat.sub_le _ _))

/-- The field loop returns at most one matched key per expected field. -/
theorem checkFields_count (fm : Value → Value → String → Except String Bool) (parsed : Value) :
    ∀ (fields : List (String × Value)) (ms : List String)
      (mms : List (String × Value × Value)),
      checkFields fm parsed fields = .ok (ms, mms) → ms.length ≤ fields.length := by
  intro fields
  induction fields with
  | nil =>
      intro ms mms h
      unfold checkFields at h
      cases h
      simp
  | cons f rest ih =>
      intro ms mms h
      obtain ⟨key, ev⟩ := f
      unfold checkFields at h
      simp only [] at h
      rcases hm : fm ev (getProp parsed key) key with e' | b <;> rw [hm] at h
      · rw [errBind] at h
        exact absurd h (by simp)
      · rw [okBind] at h
        rcases hrec : checkFields fm parsed rest with e' | ⟨ms', mms'⟩ <;> rw [hrec] at h
        · rw [errBind] at h
          exact absurd h (by simp)
        · rw [okBind] at h
          split at h <;> cases h <;>
            (have hh := ih _ _ hrec; simp only [List.length_cons]; omega)

/-- Every successful result of the structured-output scorer has its score in
`[0, 1]`. -/
theorem structuredOutputScore_bounds (jparse : String → Except String Value)
    (ms : SMatch) (options : FuzzyOpts) (cfg : SConfig)
    (expected : List (String × Value)) (output : String) (r : ScoreResult)
    (hr : structuredOutputScore jparse ms options cfg expected output = .ok r) :
    0 ≤ r.score ∧ r.score ≤ 1 := by
  unfold structuredOutputScore at hr
  rcases hp : jparse output with e' | parsed <;> rw [hp] at hr <;> simp only [] at hr
  · cases hr
    simp
  · split at hr
    · cases hr
      simp [mkScore]
    · rcases hev : errorValue cfg.errorField parsed with _ | v <;> simp only [hev] at hr
      · rcases hcf : checkFields (sFieldMatcher ms options) parsed expected
          with e' | ⟨mks, mims⟩ <;> rw [hcf] at hr
        · rw [errBind] at hr
          exact absurd hr (by simp)
        · rw [okBind] at hr
          simp only [] at hr
          repeat' split at hr
          all_goals cases hr
          all_goals first
            | (simp [mkScore]; done)
            | exact natDiv_unit _ _ (checkFields_count _ _ _ _ _ hcf)
      · cases hr
        simp

/-- C9: every score the tool-call matcher or the structured-output matcher
returns — for every configuration, matcher (including custom ones), and
input — is a non-null rational in the closed interval `[0, 1]` (the model's
`score` field is total, mirroring that these scorers never produce a `null`
score). -/
theorem c9_scores_lie_in_unit_interval :
    (∀ (cfg : ToolCallConfig) (m : Matcher) (exps : List ExpectedTool)
      (acts : List ToolCall) (r : ScoreResult),
      toolCallScore cfg m exps acts = .ok r → 0 ≤ r.score ∧ r.score ≤ 1) ∧
    (∀ (jparse : String → Except String Value) (ms : SMatch) (options : FuzzyOpts)
      (cfg : SConfig) (expected : List (String × Value)) (output : String) (r : ScoreResult),
      structuredOutputScore jparse ms options cfg expected output = .ok r →
        0 ≤ r.score ∧ r.score ≤ 1) := by
  constructor
  · intro cfg m exps acts r hr
    unfold toolCallScore at hr
    split at hr
    · cases hr
      simp [mkScore]
    · split at hr
      · cases hr
        simp [mkScore]
      · split at hr
        · exact evalOrderedAux_bounds m cfg.allowExtras cfg.requireAll exps.length acts exps 0
            (by simp) r hr
        · exact evaluateUnorderedTools_bounds m cfg.requireAll cfg.allowExtras exps acts r hr
  · intro jparse ms options cfg expected output r hr
    exact structuredOutputScore_bounds jparse ms options cfg expected output r hr

theorem c9_witness :
    0 ≤ (mkScore 1 "No tool calls expected").score ∧
      (mkScore 1 "No tool calls expected").score ≤ 1 :=
  c9_scores_lie_in_unit_interval.1 ⟨false, true, true⟩
    (createMatcher .strict FuzzyOpts.empty) [] [] (mkScore 1 "No tool calls expected") rfl

/-- C1 (amended): for the unordered matcher with non-empty expected and
actual lists, the hard `0.0` is returned exactly when the issue list is
non-empty **and** (`requireAll` or `!allowExtras`) — i.e. when
(some expected item is unmatched **or** (`!allowExtras` and extras exist))
and (`requireAll` or `!allowExtras`); in every other case the score is
`matchedCount/totalExpected` (with the `1.0` short-circuit producing the
same value).  In particular, with `requireAll = false` and
`allowExtras = false`, missing expected items alone — no extras present —
**do** force the score to `0.0` (see the counterexample). -/
theorem c1_unordered_zero_score_characterization (m : Matcher)
    (requireAll allowExtras : Bool) (exps : List ExpectedTool) (acts : List ToolCall)
    (remExp : List ExpectedTool) (remAct : List ToolCall)
    (hne : exps ≠ []) (hane : acts ≠ [])
    (hc : consumeTools m exps acts = .ok (remExp, remAct)) :
    ∃ r, toolCallScore ⟨false, requireAll, allowExtras⟩ m exps acts = .ok r ∧
      r.score = (if (remExp.length ≠ 0 ∨ (allowExtras = false ∧ remAct.length ≠ 0)) ∧
          (requireAll = true ∨ allowExtras = false)
        then 0
        else ((exps.length - remExp.length : ℕ) : ℚ) / (exps.length : ℚ)) := by
  have hlen1 : (exps.length == 0) = false := by
    cases exps with
    | nil => exact absurd rfl hne
    | cons x xs => rfl
  have hlen2 : (acts.length == 0) = false := by
    cases acts with
    | nil => exact absurd rfl hane
    | cons x xs => rfl
  have hlpos : exps.length > 0 := by
    cases exps with
    | nil => exact absurd rfl hne
    | cons x xs => simp
  unfold toolCallScore
  simp only [hlen1, hlen2, Bool.false_eq_true, if_false]
  unfold evaluateUnorderedTools
  rw [hc, okBind]
  simp only [if_pos hlpos]
  by_cases hP : (remExp.length ≠ 0 ∨ (allowExtras = false ∧ remAct.length ≠ 0)) ∧
      (requireAll = true ∨ allowExtras = false)
  · have hb : (!(List.map (fun e => missingIssue e acts) remExp ++
        (if (!allowExtras && !(List.map ToolCall.name remAct).isEmpty) = true then
          ["Unexpected extra tools: " ++ joinSep ", " (List.map ToolCall.name remAct)]
        else [])).isEmpty && (requireAll || !allowExtras)) = true := by
      cases remExp <;> cases remAct <;> cases requireAll <;> cases allowExtras <;> simp_all
    simp only [hb, if_true, if_pos hP]
    exact ⟨_, rfl, rfl⟩
  · have hb : (!(List.map (fun e => missingIssue e acts) remExp ++
        (if (!allowExtras && !(List.map ToolCall.name remAct).isEmpty) = true then
          ["Unexpected extra tools: " ++ joinSep ", " (List.map ToolCall.name remAct)]
        else [])).isEmpty && (requireAll || !allowExtras)) = false := by
      cases remExp <;> cases remAct <;> cases requireAll <;> cases allowExtras <;> simp_all
    simp only [hb, Bool.false_eq_true, if_false, if_neg hP]
    by_cases h2 : ((((exps.length - remExp.length : ℕ) : ℚ) / (exps.length : ℚ)) == 1) = true
    · simp only [h2, if_true]
      exact ⟨_, rfl, (beq_iff_eq.mp h2).symm⟩
    · simp only [h2, Bool.false_eq_true, if_false]
      exact ⟨_, rfl, rfl⟩

theorem c1_counterexample :
    toolCallScore ⟨false, false, false⟩ (fun _ _ => .ok true)
      [⟨"a", none⟩, ⟨"b", none⟩] [⟨"a", none⟩] =
      .ok (mkScore 0 "Missing required tool: b") ∧ (0 : ℚ) ≠ 1 / 2 := by
  constructor
  · rfl
  · norm_num

theorem c1_witness :
    ∃ r, toolCallScore ⟨false, true, true⟩ (fun _ _ => .ok true)
      [⟨"a", none⟩, ⟨"b", none⟩] [⟨"a", none⟩] = .ok r ∧ r.score = 0 := by
  have h := c1_unordered_zero_score_characterization (fun _ _ => .ok true) true true
    [⟨"a", none⟩, ⟨"b", none⟩] [⟨"a", none⟩] [⟨"b", none⟩] []
    (by simp) (by simp) rfl
  simpa using h

/-- An expected/actual pair the ordered cursor walks straight through:
names agree and the argument check (when requested) passes. -/
def cleanPair (m : Matcher) (e : ExpectedTool) (a : ToolCall) : Prop :=
  e.name = a.name ∧ ∀ v, e.arguments = some v → m v (argsOrEmpty a.arguments) = .ok true

/-- Walking a cleanly-matching prefix advances both cursors and the matched
counter in lock-step. -/
theorem evalOrderedAux_cleanWalk (m : Matcher) (ax ra : Bool) (total : Nat)
    (pre : List ExpectedTool) (apre : List ToolCall)
    (hf : List.Forall₂ (cleanPair m) pre apre) :
    ∀ (erest : List ExpectedTool) (arest : List ToolCall) (k : Nat),
      evalOrderedAux m ax ra total (pre ++ erest) (apre ++ arest) k =
        evalOrderedAux m ax ra total erest arest (k + pre.length) := by
  induction hf with
  | nil =>
      intro erest arest k
      simp
  | @cons e a pre' apre' hpair hrest ih =>
      intro erest arest k
      obtain ⟨hname, hargs⟩ := hpair
      simp only [List.cons_append]
      have hstep : evalOrderedAux m ax ra total ((e :: (pre' ++ erest)))
          ((a :: (apre' ++ arest))) k =
          evalOrderedAux m ax ra total (pre' ++ erest) (apre' ++ arest) (k + 1) := by
        conv_lhs => unfold evalOrderedAux
        rw [show (e.name == a.name) = true by simp [hname]]
        simp only [if_true]
        cases harg : e.arguments with
        | none => rfl
        | some v =>
            simp only []
            rw [hargs v harg, okBind]
            rfl
      rw [hstep, ih erest arest (k + 1)]
      simp only [List.length_cons]
      ring_nf

/-- C4: in the ordered matcher, when the actual call under the cursor has
the right name but the specified arguments fail the matcher after a cleanly
matched prefix of length `k`, the returned score is exactly
`k / len(expectedList)` — partial credit for the positions matched strictly
before the failure, not a hard `0.0` — and the rationale cites the failing
position `k + 1`. -/
theorem c4_ordered_arg_mismatch_partial_credit (m : Matcher) (ra ax : Bool)
    (pre : List ExpectedTool) (apre : List ToolCall) (e : ExpectedTool) (a : ToolCall)
    (erest : List ExpectedTool) (arest : List ToolCall) (v : Value)
    (hclean : List.Forall₂ (cleanPair m) pre apre)
    (hname : e.name = a.name) (hargs : e.arguments = some v)
    (hfail : m v (argsOrEmpty a.arguments) = .ok false) :
    toolCallScore ⟨true, ra, ax⟩ m (pre ++ e :: erest) (apre ++ a :: arest) =
      .ok ⟨(pre.length : ℚ) / ((pre ++ e :: erest).length : ℚ),
        "Tool " ++ sQuote ++ e.name ++ sQuote ++ " called with incorrect arguments at position "
          ++ toString (pre.length + 1) ++ " (" ++ toString pre.length ++ "/"
          ++ toString (pre ++ e :: erest).length ++ " tools matched correctly)",
        some pre.length, some (pre ++ e :: erest).length, some v, a.arguments, none⟩ := by
  have hlen1 : ((pre ++ e :: erest).length == 0) = false := by simp
  have hlen2 : ((apre ++ a :: arest).length == 0) = false := by simp
  unfold toolCallScore
  simp only [hlen1, hlen2, Bool.false_eq_true, if_false, if_true]
  unfold evaluateOrderedTools
  rw [evalOrderedAux_cleanWalk m ax ra (pre ++ e :: erest).length pre apre hclean
    (e :: erest) (a :: arest) 0]
  unfold evalOrderedAux
  rw [show (e.name == a.name) = true by simp [hname]]
  simp only [if_true]
  rw [hargs]
  simp only []
  rw [hfail, okBind]
  simp only [Bool.false_eq_true, if_false, Nat.zero_add]

theorem c4_witness :
    toolCallScore ⟨true, true, true⟩ (fun x y => .ok (jsStrictEq x y))
      [⟨"t1", some (.num 1)⟩, ⟨"t2", some (.num 2)⟩, ⟨"t3", none⟩]
      [⟨"t1", some (.num 1)⟩, ⟨"t2", some (.num 3)⟩, ⟨"t3", none⟩] =
      .ok ⟨1 / 3,
        "Tool " ++ sQuote ++ "t2" ++ sQuote ++ " called with incorrect arguments at position 2"
          ++ " (1/3 tools matched correctly)",
        some 1, some 3, some (.num 2), some (.num 3), none⟩ := by
  have h := c4_ordered_arg_mismatch_partial_credit (fun x y => .ok (jsStrictEq x y)) true true
    [⟨"t1", some (.num 1)⟩] [⟨"t1", some (.num 1)⟩]
    ⟨"t2", some (.num 2)⟩ ⟨"t2", some (.num 3)⟩
    [⟨"t3", none⟩] [⟨"t3", none⟩] (.num 2)
    (by
      refine List.Forall₂.cons ⟨rfl, ?_⟩ List.Forall₂.nil
      intro w hw
      cases hw
      rfl)
    rfl rfl (by rfl)
  exact h

/-- Structural induction over `Value` with access to all list members. -/
theorem Value.myInduction {motive : Value → Prop}
    (hundefV : motive .undefV) (hnull : motive .vnull)
    (hbool : ∀ b, motive (.bool b)) (hnum : ∀ q, motive (.num q))
    (hstr : ∀ s, motive (.str s)) (hregex : ∀ src t, motive (.regex src t))
    (harr : ∀ xs, (∀ x ∈ xs, motive x) → motive (.arr xs))
    (hobj : ∀ fs, (∀ p ∈ fs, motive p.2) → motive (.obj fs)) :
    ∀ v, motive v := by
  have H : ∀ (n : Nat) (v : Value), sizeOf v ≤ n → motive v := by
    intro n
    induction n with
    | zero =>
        intro v hv
        cases v <;> simp at hv
    | succ n ih =>
        intro v hv
        cases v with
        | undefV => exact hundefV
        | vnull => exact hnull
        | bool b => exact hbool b
        | num q => exact hnum q
        | str s => exact hstr s
        | regex src t => exact hregex src t
        | arr xs =>
            refine harr xs (fun x hx => ih x ?_)
            have h1 := List.sizeOf_lt_of_mem hx
            simp only [Value.arr.sizeOf_spec] at hv
            omega
        | obj fs =>
            refine hobj fs (fun p hp => ih p.2 ?_)
            have h1 := List.sizeOf_lt_of_mem hp
            have h2 : sizeOf p.2 < sizeOf p := by
              obtain ⟨a, b⟩ := p
              simp
            simp only [Value.obj.sizeOf_spec] at hv
            omega
  exact fun v => H (sizeOf v) v le_rfl

theorem startsWithCh_self : ∀ l : List Char, startsWithCh l l = true := by
  intro l
  induction l with
  | nil => rfl
  | cons h t ih => simp [startsWithCh, ih]

theorem strIncludes_self (s : String) : strIncludes s s = true := by
  unfold strIncludes
  cases hd : s.data with
  | nil => rfl
  | cons h t => simp [hasSubCh, startsWithCh_self]

theorem fuzzyMatchString_self (s : String) (options : FuzzyOpts) :
    fuzzyMatchString s s options = true := by
  unfold fuzzyMatchString
  simp only []
  split
  · simp [strIncludes_self]
  · simp

/-- Every field value of a well-formed field list is well-formed. -/
theorem wfFields_mem : ∀ (fs : List (String × Value)), wfFields fs = true →
    ∀ p ∈ fs, wfValue p.2 = true := by
  intro fs
  induction fs with
  | nil =>
      intro _ p hp
      cases hp
  | cons f rest ih =>
      intro h p hp
      obtain ⟨k, v⟩ := f
      unfold wfFields at h
      simp only [Bool.and_eq_true] at h
      rcases List.mem_cons.mp hp with hp1 | hp1
      · rw [hp1]
        exact h.1
      · exact ih h.2 p hp1

/-- Every element of a well-formed element list is well-formed. -/
theorem wfList_mem : ∀ (xs : List Value), wfList xs = true →
    ∀ x ∈ xs, wfValue x = true := by
  intro xs
  induction xs with
  | nil =>
      intro _ x hx
      cases hx
  | cons y rest ih =>
      intro h x hx
      unfold wfList at h
      simp only [Bool.and_eq_true] at h
      rcases List.mem_cons.mp hx with hx1 | hx1
      · rw [hx1]
        exact h.1
      · exact ih h.2 x hx1

/-- A lookup that succeeds in `fs` succeeds unchanged in `fs ++ L`. -/
theorem lookupF_append_left (k : String) (L : List (String × Value)) :
    ∀ (fs : List (String × Value)) (v : Value),
      lookupF k fs = some v → lookupF k (fs ++ L) = some v := by
  intro fs
  induction fs with
  | nil =>
      intro v hv
      simp [lookupF] at hv
  | cons f rest ih =>
      intro v hv
      obtain ⟨k', w⟩ := f
      simp only [List.cons_append]
      unfold lookupF at hv ⊢
      split at hv
      case isTrue h =>
        cases hv
        rw [if_pos h]
      case isFalse h =>
        rw [if_neg h]
        exact ih v hv

/-- With distinct keys, looking up the key of a member returns its value. -/
theorem lookupF_nodup_mem :
    ∀ (fs : List (String × Value)), (fs.map Prod.fst).Nodup →
      ∀ (k : String) (v : Value), (k, v) ∈ fs → lookupF k fs = some v := by
  intro fs
  induction fs with
  | nil =>
      intro _ k v hv
      cases hv
  | cons f rest ih =>
      intro hnd k v hv
      obtain ⟨k', w⟩ := f
      simp only [List.map_cons, List.nodup_cons] at hnd
      rcases List.mem_cons.mp hv with hv1 | hv1
      · cases hv1
        simp [lookupF]
      · have hk : k' ≠ k := by
          intro he
          exact hnd.1 (he ▸ (List.mem_map.mpr ⟨(k, v), hv1, rfl⟩))
        unfold lookupF
        rw [if_neg hk]
        exact ih hnd.2 k v hv1

/-- `fuzzyMatchObject` is `all` over the expected entries. -/
theorem fuzzyMatchObject_eq_all :
    ∀ (fs : List (String × Value)) (act : Value) (options : FuzzyOpts),
      fuzzyMatchObject fs act options =
        fs.all (fun p => hasProp act p.1 && fuzzyMatch p.2 (getProp act p.1) options) := by
  intro fs
  induction fs with
  | nil =>
      intro act options
      simp [fuzzyMatchObject]
  | cons f rest ih =>
      intro act options
      obtain ⟨k, v⟩ := f
      unfold fuzzyMatchObject
      rw [ih]
      simp [List.all_cons, Bool.and_assoc]

/-- Greedy unordered array matching of a list against itself succeeds when
every element matches itself. -/
theorem fuzzyArrGreedy_self :
    ∀ (xs : List Value) (options : FuzzyOpts),
      (∀ x ∈ xs, fuzzyMatch x x options = true) → fuzzyArrGreedy xs xs options = true := by
  intro xs
  induction xs with
  | nil =>
      intro options _
      simp [fuzzyArrGreedy]
  | cons x t ih =>
      intro options hxs
      unfold fuzzyArrGreedy removeFirstMatch
      rw [hxs x (by simp)]
      simp only [if_true]
      exact ih options (fun y hy => hxs y (by simp [hy]))

/-- Ordered array matching of a list against itself succeeds when every
element matches itself. -/
theorem fuzzyArrOrdered_self :
    ∀ (xs : List Value) (options : FuzzyOpts),
      (∀ x ∈ xs, fuzzyMatch x x options = true) → fuzzyArrOrdered xs xs options = true := by
  intro xs
  induction xs with
  | nil =>
      intro options _
      simp [fuzzyArrOrdered]
  | cons x t ih =>
      intro options hxs
      unfold fuzzyArrOrdered
      rw [hxs x (by simp), ih options (fun y hy => hxs y (by simp [hy]))]
      rfl

/-- A key absent from the field names never resolves. -/
theorem lookupF_eq_none_of_not_mem :
    ∀ (fs : List (String × Value)) (k : String),
      k ∉ fs.map Prod.fst → lookupF k fs = none := by
  intro fs
  induction fs with
  | nil => intro k _; rfl
  | cons f rest ih =>
      intro k hk
      obtain ⟨k', w⟩ := f
      simp only [List.map_cons, List.mem_cons] at hk
      push_neg at hk
      unfold lookupF
      rw [if_neg (fun he => hk.1 he.symm)]
      exact ih k hk.2

/-- `fuzzyMatch` is reflexive on well-formed data values whenever the
numeric tolerance in effect is non-negative (the default `0.001` included). -/
theorem fuzzyMatch_refl (options : FuzzyOpts) (ht : 0 ≤ tolOf options) :
    ∀ v : Value, wfValue v = true → fuzzyMatch v v options = true := by
  intro v
  induction v using Value.myInduction with
  | hundefV => intro _; simp [fuzzyMatch, jsStrictEq]
  | hnull => intro _; simp [fuzzyMatch, jsStrictEq]
  | hbool b => intro _; simp [fuzzyMatch, coerceOrStrict, jsStrictEq]
  | hnum q =>
      intro _
      have h1 : fuzzyMatch (.num q) (.num q) options = fuzzyMatchNumber q q options := by
        simp [fuzzyMatch]
      rw [h1]
      unfold fuzzyMatchNumber
      simp only [sub_self, abs_zero, decide_eq_true_eq]
      exact le_trans ht (le_max_right _ _)
  | hstr s => intro _; simp [fuzzyMatch, fuzzyMatchString_self]
  | hregex src t => intro h; exact absurd h (by simp [wfValue])
  | harr xs ihm =>
      intro h
      have hl : wfList xs = true := by
        unfold wfValue at h
        exact h
      have hxs : ∀ x ∈ xs, fuzzyMatch x x options = true :=
        fun x hx => ihm x hx (wfList_mem xs hl x hx)
      have h2 : fuzzyMatch (.arr xs) (.arr xs) options = fuzzyMatchArray xs xs options := by
        simp [fuzzyMatch]
      rw [h2]
      unfold fuzzyMatchArray
      split
      · exact fuzzyArrGreedy_self xs options hxs
      · rw [fuzzyArrOrdered_self xs options hxs]
        simp
  | hobj fs ihm =>
      intro h
      have hnd : (fs.map Prod.fst).Nodup ∧ wfFields fs = true := by
        unfold wfValue at h
        simpa [Bool.and_eq_true] using h
      have h2 : fuzzyMatch (.obj fs) (.obj fs) options = fuzzyMatchObject fs (.obj fs) options := by
        simp [fuzzyMatch, typeofV, Value.isArr]
      rw [h2, fuzzyMatchObject_eq_all, List.all_eq_true]
      intro p hp
      have hlk : lookupF p.1 fs = some p.2 := lookupF_nodup_mem fs hnd.1 p.1 p.2 (by simpa using hp)
      have hm : fuzzyMatch p.2 p.2 options = true := ihm p hp (wfFields_mem fs hnd.2 p hp)
      simp [hasProp, getProp, hlk, hm]

/-- C6: fuzzy object matching is subset matching, not equality: extending a
well-formed data object `E` by one extra key yields an object that `E`
fuzzy-matches (every expected key is present and matches recursively), while
the extended object does not fuzzy-match `E` — provided the tolerance in
effect is non-negative (default included).  For `E` containing regex values
the first half fails; see the counterexample. -/
theorem c6_fuzzy_object_subset (options : FuzzyOpts) (E : List (String × Value))
    (extraKey : String) (v : Value) (ht : 0 ≤ tolOf options)
    (hwf : wfValue (.obj E) = true) (hnk : extraKey ∉ E.map Prod.fst) :
    fuzzyMatch (.obj E) (.obj (E ++ [(extraKey, v)])) options = true ∧
    fuzzyMatch (.obj (E ++ [(extraKey, v)])) (.obj E) options = false := by
  have hnd : (E.map Prod.fst).Nodup ∧ wfFields E = true := by
    unfold wfValue at hwf
    simpa [Bool.and_eq_true] using hwf
  constructor
  · have h2 : fuzzyMatch (.obj E) (.obj (E ++ [(extraKey, v)])) options =
        fuzzyMatchObject E (.obj (E ++ [(extraKey, v)])) options := by
      simp [fuzzyMatch, typeofV, Value.isArr]
    rw [h2, fuzzyMatchObject_eq_all, List.all_eq_true]
    intro p hp
    have hlk : lookupF p.1 (E ++ [(extraKey, v)]) = some p.2 :=
      lookupF_append_left p.1 _ E p.2 (lookupF_nodup_mem E hnd.1 p.1 p.2 (by simpa using hp))
    have hm : fuzzyMatch p.2 p.2 options = true :=
      fuzzyMatch_refl options ht p.2 (wfFields_mem E hnd.2 p hp)
    simp [hasProp, getProp, hlk, hm]
  · have h2 : fuzzyMatch (.obj (E ++ [(extraKey, v)])) (.obj E) options =
        fuzzyMatchObject (E ++ [(extraKey, v)]) (.obj E) options := by
      simp [fuzzyMatch, typeofV, Value.isArr]
    rw [h2, fuzzyMatchObject_eq_all]
    rw [List.all_eq_false]
    refine ⟨(extraKey, v), by simp, ?_⟩
    simp [hasProp, lookupF_eq_none_of_not_mem E extraKey hnk]

theorem c6_counterexample :
    fuzzyMatch (.obj [("a", .regex "x" (fun _ => false))])
      (.obj [("a", .regex "x" (fun _ => false)), ("b", .num 1)]) FuzzyOpts.empty = false := by
  simp [fuzzyMatch, fuzzyMatchObject, hasProp, lookupF, getProp, typeofV, Value.isArr]

theorem c6_witness :
    fuzzyMatch (.obj [("a", .num 1)]) (.obj [("a", .num 1), ("b", .str "x")])
      FuzzyOpts.empty = true ∧
    fuzzyMatch (.obj [("a", .num 1), ("b", .str "x")]) (.obj [("a", .num 1)])
      FuzzyOpts.empty = false := by
  have h := c6_fuzzy_object_subset FuzzyOpts.empty [("a", .num 1)] "b" (.str "x")
    (by norm_num [tolOf, FuzzyOpts.empty])
    (by simp [wfValue, wfFields])
    (by simp)
  simpa using h

/-- `===` is symmetric. -/
theorem jsStrictEq_symm : ∀ a b : Value, jsStrictEq a b = jsStrictEq b a := by
  intro a b
  cases a <;> cases b <;> try rfl
  case bool.bool x y => cases x <;> cases y <;> rfl
  case num.num p q => simp [jsStrictEq, eq_comm]
  case str.str s t =>
      by_cases h : s = t
      · rw [h]
      · show (s == t) = (t == s)
        rw [beq_eq_false_iff_ne.mpr h, beq_eq_false_iff_ne.mpr (fun hh => h hh.symm)]

mutual

/-- The pairs of values whose comparison never matches an array against a
non-array object, at any position the strict comparison reaches — the side
condition under which `strictEquals` is symmetric. -/
def mixFree : Value → Value → Bool
  | .arr _, .obj _ => false
  | .obj _, .arr _ => false
  | .arr xs, .arr ys => mixFreeList xs ys
  | .obj fs, .obj gs => mixFreeFields fs gs
  | _, _ => true
termination_by a b => (sizeOf a, sizeOf b)

/-- Positional `mixFree` on array elements. -/
def mixFreeList : List Value → List Value → Bool
  | [], _ => true
  | _ :: _, [] => true
  | x :: xs, y :: ys => mixFree x y && mixFreeList xs ys
termination_by xs ys => (sizeOf xs, sizeOf ys)

/-- `mixFree` between each left field value and the same-keyed right value. -/
def mixFreeFields : List (String × Value) → List (String × Value) → Bool
  | [], _ => true
  | (k, v) :: rest, gs =>
      (match lookupF k gs with
       | some w => mixFree v w
       | none => true) && mixFreeFields rest gs
termination_by fs gs => (sizeOf fs, sizeOf gs)

end

/-- `strictFields` is `all` over the expected entries. -/
theorem strictFields_eq_all :
    ∀ (fs : List (String × Value)) (act : Value),
      strictFields fs act =
        fs.all (fun p => hasProp act p.1 && strictEquals p.2 (getProp act p.1)) := by
  intro fs
  induction fs with
  | nil =>
      intro act
      simp [strictFields]
  | cons f rest ih =>
      intro act
      obtain ⟨k, v⟩ := f
      unfold strictFields
      rw [ih]
      simp [List.all_cons, Bool.and_assoc]

/-- A successful lookup comes from a member entry. -/
theorem lookupF_some_mem :
    ∀ (fs : List (String × Value)) (k : String) (w : Value),
      lookupF k fs = some w → (k, w) ∈ fs := by
  intro fs
  induction fs with
  | nil =>
      intro k w h
      simp [lookupF] at h
  | cons f rest ih =>
      intro k w h
      obtain ⟨k', v⟩ := f
      unfold lookupF at h
      split at h
      case isTrue he =>
        cases h
        rw [he]
        exact List.mem_cons_self _ _
      case isFalse he =>
        exact List.mem_cons_of_mem _ (ih k w h)

/-- A key that resolves is among the field names. -/
theorem lookupF_isSome_mem (fs : List (String × Value)) (k : String)
    (h : (lookupF k fs).isSome = true) : k ∈ fs.map Prod.fst := by
  rcases hl : lookupF k fs with _ | w
  · rw [hl] at h
    cases h
  · exact List.mem_map.mpr ⟨(k, w), lookupF_some_mem fs k w hl, rfl⟩

/-- Unpacking `mixFreeFields` at a member with a resolving key. -/
theorem mixFreeFields_mem :
    ∀ (fs gs : List (String × Value)), mixFreeFields fs gs = true →
      ∀ q ∈ fs, ∀ w, lookupF q.1 gs = some w → mixFree q.2 w = true := by
  intro fs
  induction fs with
  | nil =>
      intro gs _ q hq
      cases hq
  | cons f rest ih =>
      intro gs hmf q hq w hlk
      obtain ⟨k, v⟩ := f
      unfold mixFreeFields at hmf
      simp only [Bool.and_eq_true] at hmf
      rcases List.mem_cons.mp hq with hq1 | hq1
      · subst hq1
        simp only [] at hlk hmf ⊢
        rw [hlk] at hmf
        exact hmf.1
      · exact ih gs hmf.2 q hq1 w hlk

/-- Every value has positive size. -/
theorem value_sizeOf_pos : ∀ v : Value, 0 < sizeOf v := by
  intro v
  cases v <;> simp_arith

/-- Positional symmetry of element-wise strict array comparison. -/
theorem strictList_symm_aux :
    ∀ (xs ys : List Value),
      (∀ x ∈ xs, ∀ y ∈ ys, wfValue x = true → wfValue y = true → mixFree x y = true →
        strictEquals x y = strictEquals y x) →
      wfList xs = true → wfList ys = true → mixFreeList xs ys = true →
      strictList xs ys = strictList ys xs := by
  intro xs
  induction xs with
  | nil =>
      intro ys _ _ _ _
      cases ys <;> simp [strictList]
  | cons x t ih =>
      intro ys hsym hwx hwy hmf
      cases ys with
      | nil => simp [strictList]
      | cons y u =>
          unfold strictList
          unfold mixFreeList at hmf
          simp only [Bool.and_eq_true] at hmf
          unfold wfList at hwx hwy
          simp only [Bool.and_eq_true] at hwx hwy
          rw [hsym x (by simp) y (by simp) hwx.1 hwy.1 hmf.1,
            ih u (fun x' hx' y' hy' => hsym x' (by simp [hx']) y' (by simp [hy']))
              hwx.2 hwy.2 hmf.2]

/-- Symmetry of the object-field comparison under equal key counts,
distinct keys, and the mix-freedom side condition. -/
theorem strictFields_symm_aux (fs gs : List (String × Value))
    (hsym : ∀ v w, v ∈ fs.map Prod.snd → w ∈ gs.map Prod.snd →
      wfValue v = true → wfValue w = true → mixFree v w = true →
      strictEquals v w = strictEquals w v)
    (hndf : (fs.map Prod.fst).Nodup) (hndg : (gs.map Prod.fst).Nodup)
    (hwf : wfFields fs = true) (hwg : wfFields gs = true)
    (hmf : mixFreeFields fs gs = true)
    (hlen : fs.length = gs.length) :
    strictFields fs (.obj gs) = strictFields gs (.obj fs) := by
  have keysEq : ∀ (h : ∀ k ∈ fs.map Prod.fst, k ∈ gs.map Prod.fst),
      ∀ k ∈ gs.map Prod.fst, k ∈ fs.map Prod.fst := by
    intro h k hk
    have hsubF : (fs.map Prod.fst).toFinset ⊆ (gs.map Prod.fst).toFinset := by
      intro x hx
      exact List.mem_toFinset.mpr (h x (List.mem_toFinset.mp hx))
    have hcard : (gs.map Prod.fst).toFinset.card ≤ (fs.map Prod.fst).toFinset.card := by
      rw [List.toFinset_card_of_nodup hndf, List.toFinset_card_of_nodup hndg]
      simp [hlen]
    have := Finset.eq_of_subset_of_card_le hsubF hcard
    rw [← List.mem_toFinset, ← this, List.mem_toFinset] at hk
    exact hk
  have fwd : strictFields fs (.obj gs) = true → strictFields gs (.obj fs) = true := by
    intro hf
    rw [strictFields_eq_all, List.all_eq_true] at hf ⊢
    have hsub : ∀ k ∈ fs.map Prod.fst, k ∈ gs.map Prod.fst := by
      intro k hk
      obtain ⟨q, hq, rfl⟩ := List.mem_map.mp hk
      have h1 := hf q hq
      simp only [Bool.and_eq_true, hasProp] at h1
      exact lookupF_isSome_mem gs q.1 h1.1
    intro p hp
    have hkf : p.1 ∈ fs.map Prod.fst := keysEq hsub p.1 (List.mem_map.mpr ⟨p, hp, rfl⟩)
    obtain ⟨q, hq, hq1⟩ := List.mem_map.mp hkf
    have hlf : lookupF p.1 fs = some q.2 := by
      rw [← hq1]
      exact lookupF_nodup_mem fs hndf q.1 q.2 (by simpa using hq)
    have hlg : lookupF q.1 gs = some p.2 := by
      rw [hq1]
      exact lookupF_nodup_mem gs hndg p.1 p.2 (by simpa using hp)
    have h1 := hf q hq
    simp only [Bool.and_eq_true, hasProp, getProp, hlg, Option.getD_some] at h1
    have hmx : mixFree q.2 p.2 = true := mixFreeFields_mem fs gs hmf q hq p.2 hlg
    have heq : strictEquals q.2 p.2 = strictEquals p.2 q.2 :=
      hsym q.2 p.2 (List.mem_map.mpr ⟨q, hq, rfl⟩) (List.mem_map.mpr ⟨p, hp, rfl⟩)
        (wfFields_mem fs hwf q hq) (wfFields_mem gs hwg p hp) hmx
    simp only [Bool.and_eq_true, hasProp, getProp, hlf, Option.getD_some]
    exact ⟨by simp, heq ▸ h1.2⟩
  have bwd : strictFields gs (.obj fs) = true → strictFields fs (.obj gs) = true := by
    intro hg
    rw [strictFields_eq_all, List.all_eq_true] at hg ⊢
    have hsub : ∀ k ∈ gs.map Prod.fst, k ∈ fs.map Prod.fst := by
      intro k hk
      obtain ⟨p, hp, rfl⟩ := List.mem_map.mp hk
      have h1 := hg p hp
      simp only [Bool.and_eq_true, hasProp] at h1
      exact lookupF_isSome_mem fs p.1 h1.1
    have keysEq' : ∀ k ∈ fs.map Prod.fst, k ∈ gs.map Prod.fst := by
      intro k hk
      have hsubG : (gs.map Prod.fst).toFinset ⊆ (fs.map Prod.fst).toFinset := by
        intro x hx
        exact List.mem_toFinset.mpr (hsub x (List.mem_toFinset.mp hx))
      have hcard : (fs.map Prod.fst).toFinset.card ≤ (gs.map Prod.fst).toFinset.card := by
        rw [List.toFinset_card_of_nodup hndf, List.toFinset_card_of_nodup hndg]
        simp [hlen]
      have := Finset.eq_of_subset_of_card_le hsubG hcard
      rw [← List.mem_toFinset, ← this, List.mem_toFinset] at hk
      exact hk
    intro q hq
    have hkg : q.1 ∈ gs.map Prod.fst := keysEq' q.1 (List.mem_map.mpr ⟨q, hq, rfl⟩)
    obtain ⟨p, hp, hp1⟩ := List.mem_map.mp hkg
    have hlg : lookupF q.1 gs = some p.2 := by
      rw [← hp1]
      exact lookupF_nodup_mem gs hndg p.1 p.2 (by simpa using hp)
    have hlf : lookupF p.1 fs = some q.2 := by
      rw [hp1]
      exact lookupF_nodup_mem fs hndf q.1 q.2 (by simpa using hq)
    have h1 := hg p hp
    simp only [Bool.and_eq_true, hasProp, getProp, hlf, Option.getD_some] at h1
    have hmx : mixFree q.2 p.2 = true := mixFreeFields_mem fs gs hmf q hq p.2 hlg
    have heq : strictEquals q.2 p.2 = strictEquals p.2 q.2 :=
      hsym q.2 p.2 (List.mem_map.mpr ⟨q, hq, rfl⟩) (List.mem_map.mpr ⟨p, hp, rfl⟩)
        (wfFields_mem fs hwf q hq) (wfFields_mem gs hwg p hp) hmx
    simp only [Bool.and_eq_true, hasProp, getProp, hlg, Option.getD_some]
    exact ⟨by simp, heq.symm ▸ h1.2⟩
  cases hfg : strictFields fs (.obj gs) <;> cases hgf : strictFields gs (.obj fs)
  · rfl
  · exact absurd (bwd hgf) (by simp [hfg])
  · exact absurd (fwd hfg) (by simp [hgf])
  · rfl

/-- Strong-induction core of the strict-comparison symmetry. -/
theorem strictEquals_symm_aux :
    ∀ (n : Nat) (a b : Value), sizeOf a + sizeOf b ≤ n →
      wfValue a = true → wfValue b = true → mixFree a b = true →
      strictEquals a b = strictEquals b a := by
  intro n
  induction n with
  | zero =>
      intro a b hs
      have h1 := value_sizeOf_pos a
      have h2 := value_sizeOf_pos b
      omega
  | succ n ih =>
      intro a b hs hwa hwb hmf
      by_cases heq : jsStrictEq a b = true
      · have heq' : jsStrictEq b a = true := by rw [jsStrictEq_symm]; exact heq
        unfold strictEquals
        rw [if_pos heq, if_pos heq']
      · have heq' : ¬ jsStrictEq b a = true := by rw [jsStrictEq_symm]; exact heq
        unfold strictEquals
        rw [if_neg heq, if_neg heq']
        by_cases hnl : (isNullish a || isNullish b) = true
        · have hnl' : (isNullish b || isNullish a) = true := by rwa [Bool.or_comm]
          rw [if_pos hnl, if_pos hnl']
        · have hnl' : ¬ (isNullish b || isNullish a) = true := by rwa [Bool.or_comm]
          rw [if_neg hnl, if_neg hnl']
          by_cases hty : typeofV a ≠ typeofV b
          · rw [if_pos hty, if_pos (fun h => hty h.symm)]
          · push_neg at hty
            rw [if_neg (fun h => h hty), if_neg (fun h => h hty.symm)]
            cases a <;> cases b <;> try rfl
            all_goals try (refine absurd hwa ?_; simp [wfValue]; done)
            all_goals try (refine absurd hwb ?_; simp [wfValue]; done)
            all_goals try (refine absurd hmf ?_; simp [mixFree]; done)
            all_goals try (refine absurd ?_ hnl; simp [isNullish]; done)
            all_goals try (refine absurd hty ?_; simp [typeofV]; done)
            next xs ys =>
                have hmfl : mixFreeList xs ys = true := by
                  unfold mixFree at hmf
                  exact hmf
                have hwx : wfList xs = true := by unfold wfValue at hwa; exact hwa
                have hwy : wfList ys = true := by unfold wfValue at hwb; exact hwb
                simp only []
                by_cases hl : xs.length = ys.length
                · rw [show (xs.length == ys.length) = true from beq_iff_eq.mpr hl,
                    show (ys.length == xs.length) = true from beq_iff_eq.mpr hl.symm]
                  rw [strictList_symm_aux xs ys ?hsym hwx hwy hmfl]
                  case hsym =>
                    intro x hx y hy hwx' hwy' hmx
                    refine ih x y ?_ hwx' hwy' hmx
                    have s1 := List.sizeOf_lt_of_mem hx
                    have s2 := List.sizeOf_lt_of_mem hy
                    simp only [Value.arr.sizeOf_spec] at hs
                    omega
                · rw [show (xs.length == ys.length) = false from
                      beq_eq_false_iff_ne.mpr hl,
                    show (ys.length == xs.length) = false from
                      beq_eq_false_iff_ne.mpr (fun h => hl h.symm)]
                  rfl
            next fs gs =>
                have hmff : mixFreeFields fs gs = true := by
                  unfold mixFree at hmf
                  exact hmf
                have hwfs : (fs.map Prod.fst).Nodup ∧ wfFields fs = true := by
                  unfold wfValue at hwa
                  simpa [Bool.and_eq_true] using hwa
                have hwgs : (gs.map Prod.fst).Nodup ∧ wfFields gs = true := by
                  unfold wfValue at hwb
                  simpa [Bool.and_eq_true] using hwb
                simp only []
                simp only [keysOf, List.length_map]
                by_cases hl : fs.length = gs.length
                · rw [show (fs.length == gs.length) = true from beq_iff_eq.mpr hl,
                    show (gs.length == fs.length) = true from beq_iff_eq.mpr hl.symm]
                  rw [strictFields_symm_aux fs gs ?hsym hwfs.1 hwgs.1 hwfs.2 hwgs.2 hmff hl]
                  case hsym =>
                    intro v w hv hw hwv hww hmx
                    refine ih v w ?_ hwv hww hmx
                    obtain ⟨p, hp, rfl⟩ := List.mem_map.mp hv
                    obtain ⟨q, hq, rfl⟩ := List.mem_map.mp hw
                    have s1 := List.sizeOf_lt_of_mem hp
                    have s2 := List.sizeOf_lt_of_mem hq
                    have s3 : sizeOf p.2 < sizeOf p := by
                      obtain ⟨x, y⟩ := p
                      simp
                    have s4 : sizeOf q.2 < sizeOf q := by
                      obtain ⟨x, y⟩ := q
                      simp
                    simp only [Value.obj.sizeOf_spec] at hs
                    omega
                · rw [show (fs.length == gs.length) = false from
                      beq_eq_false_iff_ne.mpr hl,
                    show (gs.length == fs.length) = false from
                      beq_eq_false_iff_ne.mpr (fun h => hl h.symm)]
                  rfl

/-- C7 (amended): `strictEquals` is symmetric on all well-formed data
values (no functions — unrepresentable as values here — and no regular
expressions, with objects having distinct keys) **provided** the comparison
never pits an array against a plain object (`mixFree`).  Without that
proviso symmetry fails, because the object branch treats an array actual as
a key-indexed object: see the counterexample. -/
theorem c7_strict_symmetry (a b : Value) (hwa : wfValue a = true)
    (hwb : wfValue b = true) (hmf : mixFree a b = true) :
    strictEquals a b = strictEquals b a :=
  strictEquals_symm_aux (sizeOf a + sizeOf b) a b le_rfl hwa hwb hmf

theorem c7_counterexample :
    strictEquals (.obj [("0", .str "a")]) (.arr [.str "a"]) = true ∧
    strictEquals (.arr [.str "a"]) (.obj [("0", .str "a")]) = false := by
  constructor
  · simp [strictEquals, strictFields, keysOf, hasProp, getProp, arrFind, jsStrictEq,
      isNullish, typeofV]
    decide
  · simp [strictEquals, jsStrictEq, isNullish, typeofV]

theorem c7_witness :
    strictEquals (.obj [("x", .num 1)]) (.obj [("x", .num 1), ("y", .num 2)]) =
      strictEquals (.obj [("x", .num 1), ("y", .num 2)]) (.obj [("x", .num 1)]) :=
  c7_strict_symmetry (.obj [("x", .num 1)]) (.obj [("x", .num 1), ("y", .num 2)])
    (by simp [wfValue, wfFields])
    (by simp [wfValue, wfFields])
    (by simp [mixFree, mixFreeFields, lookupF, fuzzyMatch])
